import Mathlib

/-!
Verification of the source-map and linker-patch core of
`compiler/compiled_method.h`.

The embedding models:
* `SrcMapElem` (a `{uint32 from_; int32 to_}` pair) with its 64-bit
  composite key `(int64_t(to_) << 32) | from_`;
* `SrcMap` operations `SortByFrom`, `FindByTo` (`std::lower_bound`),
  `Arrange` (`std::sort` + `std::unique`) and `DeltaFormat`;
* `LinkerPatch` with its four factory functions, its `DCHECK`-guarded
  accessors, and the friend `operator==` / `operator<`.

Machine integers are modelled as `Nat` (for the unsigned 32-bit `from_`,
with arithmetic taken mod `4294967296 = 2^32` wherever the C++ code can
wrap) and `Int` (for the signed 32-bit `to_`; signed overflow is
undefined behaviour in C++, so defined executions agree with exact `Int`
arithmetic).  Pointers (`const DexFile*`) are modelled by their identity
as a `Nat`, which is all the code ever uses of them.
-/

namespace CompiledMethodSpec

/-- 2^32, the modulus of `uint32_t` arithmetic, as a literal. -/
def u32 : Nat := 4294967296

/-- `class SrcMapElem { uint32_t from_; int32_t to_; }`.
`from_` is a `uint32_t` (so in-range values satisfy `from_ < u32`);
`to_` is an `int32_t` (in-range values lie in `[-2^31, 2^31)`). -/
structure SrcMapElem where
  from_ : Nat
  to_ : Int
deriving DecidableEq, Repr, Inhabited

/-- The composite key `explicit operator int64_t()`:
`(static_cast<int64_t>(to_) << 32) | from_`.  Because the low 32 bits of
`to_ << 32` are zero and `0 ≤ from_ < 2^32`, the bitwise-or is exactly
the sum `to_ * 2^32 + from_` in two's-complement `int64` arithmetic. -/
def SrcMapElem.key (e : SrcMapElem) : Int := e.to_ * 4294967296 + e.from_

/-- `bool operator<(const SrcMapElem&)`: comparison of composite keys. -/
def SrcMapElem.keyLt (a b : SrcMapElem) : Prop := a.key < b.key

/-- The non-strict companion of `keyLt` (`!(b < a)`): the order in which
`std::sort(begin(), end())` leaves adjacent elements. -/
def SrcMapElem.keyLe (a b : SrcMapElem) : Prop := a.key ≤ b.key

/-- `bool operator==(const SrcMapElem&)`: equality of composite keys. -/
def SrcMapElem.keyEq (a b : SrcMapElem) : Prop := a.key = b.key

/-- The comparator of `SortByFrom` (`lhs.from_ < rhs.from_`), in its
non-strict form `!(rhs.from_ < lhs.from_)` describing sortedness of the
output of `std::sort` under that comparator. -/
def SrcMapElem.fromLe (a b : SrcMapElem) : Prop := a.from_ ≤ b.from_

instance : DecidableRel SrcMapElem.keyLt :=
  fun a b => inferInstanceAs (Decidable (a.key < b.key))

instance : DecidableRel SrcMapElem.keyLe :=
  fun a b => inferInstanceAs (Decidable (a.key ≤ b.key))

instance : DecidableRel SrcMapElem.fromLe :=
  fun a b => inferInstanceAs (Decidable (a.from_ ≤ b.from_))

instance : IsTotal SrcMapElem SrcMapElem.keyLe :=
  ⟨fun a b => le_total a.key b.key⟩

instance : IsTrans SrcMapElem SrcMapElem.keyLe :=
  ⟨fun _ _ _ => le_trans⟩

instance : IsTotal SrcMapElem SrcMapElem.fromLe :=
  ⟨fun a b => Nat.le_total a.from_ b.from_⟩

instance : IsTrans SrcMapElem SrcMapElem.fromLe :=
  ⟨fun _ _ _ => Nat.le_trans⟩

/-- A `SrcMap` is the sequence of entries of the underlying
`std::vector<SrcMapElem>`. -/
abbrev SrcMap := List SrcMapElem

namespace SrcMap

/-- `void SortByFrom()`: `std::sort` with comparator
`lhs.from_ < rhs.from_` (ties left in an unspecified order; the stable
insertion sort is one conforming outcome). -/
def SortByFrom (m : SrcMap) : SrcMap := List.insertionSort SrcMapElem.fromLe m

/-- The scan of `std::unique(begin(), end())` after the first element:
`prev` is the last element kept; an element equal (by `operator==`,
i.e. by composite key) to `prev` is dropped, otherwise it is kept and
becomes the new `prev`. -/
def uniqueFrom (prev : SrcMapElem) : SrcMap → SrcMap
  | [] => []
  | b :: rest =>
    if prev.key = b.key then uniqueFrom prev rest
    else b :: uniqueFrom b rest

/-- `std::unique(begin(), end())` followed by the `resize`: keeps the
first element of every run of `operator==`-equal adjacent elements. -/
def uniqueAdj : SrcMap → SrcMap
  | [] => []
  | a :: rest => a :: uniqueFrom a rest

/-- `SrcMap& Arrange()`: if non-empty, `std::sort` by `operator<`
(composite key) then `std::unique` + `resize` (+ `shrink_to_fit`,
capacity only). -/
def Arrange (m : SrcMap) : SrcMap :=
  if m.isEmpty then m else uniqueAdj (List.insertionSort SrcMapElem.keyLe m)

/-- The truncation step of `DeltaFormat`: starting from `i = size()-1`,
decrement `i` while `i > 0` and `(*this)[i].from_ >= highest_pc`, then
`resize(i + 1)`.  Index 0 is never examined, so the head is always kept
and the maximal suffix of the tail whose `from_` is `≥ highest_pc` is
dropped. -/
def trunc (highest_pc : Nat) : SrcMap → SrcMap
  | [] => []
  | a :: rest =>
    a :: (rest.reverse.dropWhile (fun e => decide (highest_pc ≤ e.from_))).reverse

/-- `uint32_t` subtraction `a - b` (wrapping mod 2^32). -/
def u32sub (a b : Nat) : Nat := (a + (u32 - b % u32)) % u32

/-- The backward delta pass of `DeltaFormat` together with the final
baseline subtraction: `for (i = size(); --i >= 1;)` replaces entry `i`
by its difference from the still-unmodified entry `i-1`, and entry 0 is
replaced by its difference from `start`.  Functionally: every entry is
replaced by its difference from its predecessor, with `prev` as the
predecessor of the head.  `from_` subtracts in `uint32` arithmetic;
`to_` subtracts exactly (signed overflow would be undefined
behaviour). -/
def deltaList (prev : SrcMapElem) : SrcMap → SrcMap
  | [] => []
  | e :: es => ⟨u32sub e.from_ prev.from_, e.to_ - prev.to_⟩ :: deltaList e es

/-- `void DeltaFormat(const SrcMapElem& start, uint32_t highest_pc)`:
no-op on an empty map; otherwise sort by `from_`, truncate the tail at
`highest_pc`, and convert to deltas (each entry minus its predecessor,
the head minus `start`). -/
def DeltaFormat (start : SrcMapElem) (highest_pc : Nat) (m : SrcMap) : SrcMap :=
  if m.isEmpty then m
  else deltaList start (trunc highest_pc (SortByFrom m))

/-- The condition of the `DCHECK((*this)[0].from_ >= start.from_)` in
`DeltaFormat`, evaluated on the state at the check (after sorting and
truncation, before any subtraction).  Vacuously true when the guard
`!empty()` skipped the body. -/
def DeltaFormatAssert (start : SrcMapElem) (highest_pc : Nat) (m : SrcMap) : Prop :=
  match trunc highest_pc (SortByFrom m) with
  | [] => True
  | e :: _ => start.from_ ≤ e.from_

/-- Re-accumulation of a delta-formatted map from a baseline `prev`:
prefix-summing `from_` (in `uint32` arithmetic) and `to_`, the
consumer-side inverse of `deltaList` described by the spec's round-trip
law. -/
def accumulate (prev : SrcMapElem) : SrcMap → SrcMap
  | [] => []
  | e :: es =>
    let cur : SrcMapElem := ⟨(prev.from_ + e.from_) % u32, prev.to_ + e.to_⟩
    cur :: accumulate cur es

/-- The classic `std::lower_bound` binary search over indices: `first`
and `count` delimit the current half-open range; each step probes
`it = first + count / 2` and keeps the half that must contain the
answer.  The extra `fuel` argument only bounds the number of iterations
(each iteration strictly shrinks `count`, so any `fuel ≥ count` is
enough); it is bookkeeping for termination, not part of the algorithm. -/
def lowerBoundGo (m : SrcMap) (v : Int) : Nat → Nat → Nat → Nat
  | 0, first, _ => first
  | _ + 1, first, 0 => first
  | fuel + 1, first, count + 1 =>
    let step := (count + 1) / 2
    let it := first + step
    if (m.getD it default).key < v then
      lowerBoundGo m v fuel (it + 1) (count - step)
    else
      lowerBoundGo m v fuel first step

/-- `const_iterator FindByTo(int32_t to)`:
`std::lower_bound(begin(), end(), SrcMapElem({0, to}))`, with the
iterator modelled as an index into the sequence (`size()` playing the
role of `end()`). -/
def FindByTo (m : SrcMap) (target_to : Int) : Nat :=
  lowerBoundGo m (SrcMapElem.key ⟨0, target_to⟩) m.length 0 m.length

end SrcMap

/-- `enum LinkerPatchType` with its four enumerators. -/
inductive LinkerPatchType
  | kLinkerPatchMethod
  | kLinkerPatchCall
  | kLinkerPatchCallRelative
  | kLinkerPatchType
deriving DecidableEq, Repr, Inhabited

/-- The underlying integer value of each enumerator (C++ assigns
0, 1, 2, 3 in declaration order); `operator<` on the enum compares these
values. -/
def LinkerPatchType.val : LinkerPatchType → Nat
  | .kLinkerPatchMethod => 0
  | .kLinkerPatchCall => 1
  | .kLinkerPatchCallRelative => 2
  | .kLinkerPatchType => 3

/-- `class LinkerPatch` with its four data members; the
`const DexFile* target_dex_file_` pointer is modelled by its identity as
a `Nat` (the code only ever copies and compares it). -/
structure LinkerPatch where
  literal_offset : Nat
  patch_type : LinkerPatchType
  target_idx : Nat
  target_dex_file : Nat
deriving DecidableEq, Repr

/-- `MethodReference(const DexFile*, uint32_t)` as constructed by
`LinkerPatch::TargetMethod`. -/
structure MethodReference where
  dex_file : Nat
  index : Nat
deriving DecidableEq, Repr

namespace LinkerPatch

/-- `static LinkerPatch MethodPatch(...)`. -/
def MethodPatch (literal_offset : Nat) (target_dex_file : Nat)
    (target_method_idx : Nat) : LinkerPatch :=
  ⟨literal_offset, .kLinkerPatchMethod, target_method_idx, target_dex_file⟩

/-- `static LinkerPatch CodePatch(...)`. -/
def CodePatch (literal_offset : Nat) (target_dex_file : Nat)
    (target_method_idx : Nat) : LinkerPatch :=
  ⟨literal_offset, .kLinkerPatchCall, target_method_idx, target_dex_file⟩

/-- `static LinkerPatch RelativeCodePatch(...)`. -/
def RelativeCodePatch (literal_offset : Nat) (target_dex_file : Nat)
    (target_method_idx : Nat) : LinkerPatch :=
  ⟨literal_offset, .kLinkerPatchCallRelative, target_method_idx, target_dex_file⟩

/-- `static LinkerPatch TypePatch(...)`. -/
def TypePatch (literal_offset : Nat) (target_dex_file : Nat)
    (target_type_idx : Nat) : LinkerPatch :=
  ⟨literal_offset, .kLinkerPatchType, target_type_idx, target_dex_file⟩

/-- The `DCHECK` condition of `TargetMethod`: the patch kind is one of
the three method-referencing kinds. -/
def TargetMethodAssert (p : LinkerPatch) : Prop :=
  p.patch_type = .kLinkerPatchMethod ∨ p.patch_type = .kLinkerPatchCall ∨
    p.patch_type = .kLinkerPatchCallRelative

/-- `MethodReference TargetMethod()` (the value returned past the
`DCHECK`). -/
def TargetMethod (p : LinkerPatch) : MethodReference :=
  ⟨p.target_dex_file, p.target_idx⟩

/-- The `DCHECK` condition of `TargetTypeDexFile` and
`TargetTypeIndex`. -/
def TargetTypeAssert (p : LinkerPatch) : Prop :=
  p.patch_type = .kLinkerPatchType

/-- `const DexFile* TargetTypeDexFile()` (the value returned past the
`DCHECK`). -/
def TargetTypeDexFile (p : LinkerPatch) : Nat := p.target_dex_file

/-- `uint32_t TargetTypeIndex()` (the value returned past the
`DCHECK`). -/
def TargetTypeIndex (p : LinkerPatch) : Nat := p.target_idx

end LinkerPatch

/-- `bool operator==(const LinkerPatch&, const LinkerPatch&)`:
conjunction of the four field equalities. -/
def patchEq (l r : LinkerPatch) : Prop :=
  l.literal_offset = r.literal_offset ∧ l.patch_type = r.patch_type ∧
    l.target_idx = r.target_idx ∧ l.target_dex_file = r.target_dex_file

/-- `bool operator<(const LinkerPatch&, const LinkerPatch&)`: the nested
conditional chain of the source, comparing `literal_offset_`, then
`patch_type_` (by enumerator value), then `target_idx_`, then the
`target_dex_file_` pointer. -/
def patchLt (l r : LinkerPatch) : Prop :=
  if l.literal_offset ≠ r.literal_offset then l.literal_offset < r.literal_offset
  else if l.patch_type ≠ r.patch_type then l.patch_type.val < r.patch_type.val
  else if l.target_idx ≠ r.target_idx then l.target_idx < r.target_idx
  else l.target_dex_file < r.target_dex_file

/-- Lexicographic order on
`(literal_offset, patch_type, target_idx, target_dex_file)`, the order
the spec says `operator<` realises. -/
def patchLexLt (l r : LinkerPatch) : Prop :=
  l.literal_offset < r.literal_offset ∨
    (l.literal_offset = r.literal_offset ∧
      (l.patch_type.val < r.patch_type.val ∨
        (l.patch_type = r.patch_type ∧
          (l.target_idx < r.target_idx ∨
            (l.target_idx = r.target_idx ∧
              l.target_dex_file < r.target_dex_file)))))

instance : DecidableRel patchLt := by
  intro l r
  unfold patchLt
  infer_instance

instance : DecidableRel patchLexLt := by
  intro l r
  unfold patchLexLt
  infer_instance

end CompiledMethodSpec

namespace CompiledMethodSpec

/-! ### Helper lemmas about `LinkerPatchType` and the patch orders -/

theorem LinkerPatchType.val_inj (x y : LinkerPatchType) : x.val = y.val ↔ x = y := by
  cases x <;> cases y <;> simp [LinkerPatchType.val]

theorem patchLt_iff_lexLt (a b : LinkerPatch) : patchLt a b ↔ patchLexLt a b := by
  unfold patchLt patchLexLt
  by_cases h1 : a.literal_offset = b.literal_offset
  · by_cases h2 : a.patch_type = b.patch_type
    · by_cases h3 : a.target_idx = b.target_idx
      · simp [h1, h2, h3]
      · simp [h1, h2, h3]
    · simp [h1, h2, fun h => h2 ((LinkerPatchType.val_inj _ _).mp h)]
  · simp [h1]

/-- C3: the `operator<` of `LinkerPatch` is a strict total order: for
all patches `a ≠ b`, exactly one of `a < b`, `b < a` holds, and the
order coincides with lexicographic order on
`(literal_offset, patch_type, target_idx, target_dex_file)`. -/
theorem linkerPatch_lt_strict_total (a b : LinkerPatch) (hne : a ≠ b) :
    Xor' (patchLt a b) (patchLt b a) ∧ (patchLt a b ↔ patchLexLt a b) := by
  refine ⟨?_, patchLt_iff_lexLt a b⟩
  rw [Xor', patchLt_iff_lexLt a b, patchLt_iff_lexLt b a]
  have hfields : ¬(a.literal_offset = b.literal_offset ∧ a.patch_type = b.patch_type ∧
      a.target_idx = b.target_idx ∧ a.target_dex_file = b.target_dex_file) := by
    intro h
    exact hne (by cases a; cases b; simp_all)
  unfold patchLexLt
  simp only [← LinkerPatchType.val_inj] at hfields ⊢
  omega

/-- Witness for C3 at two concrete patches differing in `patch_type`. -/
theorem linkerPatch_lt_strict_total_witness :
    (LinkerPatch.CodePatch 8 1 2 ≠ LinkerPatch.TypePatch 8 1 2) ∧
    (Xor' (patchLt (LinkerPatch.CodePatch 8 1 2) (LinkerPatch.TypePatch 8 1 2))
        (patchLt (LinkerPatch.TypePatch 8 1 2) (LinkerPatch.CodePatch 8 1 2)) ∧
      (patchLt (LinkerPatch.CodePatch 8 1 2) (LinkerPatch.TypePatch 8 1 2) ↔
        patchLexLt (LinkerPatch.CodePatch 8 1 2) (LinkerPatch.TypePatch 8 1 2))) :=
  ⟨by decide, linkerPatch_lt_strict_total _ _ (by decide)⟩

/-- C8: each factory fixes the patch kind so that the `DCHECK` of the
matching accessor holds and the accessor returns exactly the supplied
dex file and index, while the accessors of the other kind have a failing
`DCHECK` condition. -/
theorem linkerPatch_accessor_contracts (o f i : Nat) :
    (LinkerPatch.TargetMethodAssert (LinkerPatch.MethodPatch o f i) ∧
      LinkerPatch.TargetMethod (LinkerPatch.MethodPatch o f i) = ⟨f, i⟩) ∧
    (LinkerPatch.TargetMethodAssert (LinkerPatch.CodePatch o f i) ∧
      LinkerPatch.TargetMethod (LinkerPatch.CodePatch o f i) = ⟨f, i⟩) ∧
    (LinkerPatch.TargetMethodAssert (LinkerPatch.RelativeCodePatch o f i) ∧
      LinkerPatch.TargetMethod (LinkerPatch.RelativeCodePatch o f i) = ⟨f, i⟩) ∧
    (LinkerPatch.TargetTypeAssert (LinkerPatch.TypePatch o f i) ∧
      LinkerPatch.TargetTypeDexFile (LinkerPatch.TypePatch o f i) = f ∧
      LinkerPatch.TargetTypeIndex (LinkerPatch.TypePatch o f i) = i) ∧
    ¬ LinkerPatch.TargetMethodAssert (LinkerPatch.TypePatch o f i) ∧
    ¬ LinkerPatch.TargetTypeAssert (LinkerPatch.MethodPatch o f i) ∧
    ¬ LinkerPatch.TargetTypeAssert (LinkerPatch.CodePatch o f i) ∧
    ¬ LinkerPatch.TargetTypeAssert (LinkerPatch.RelativeCodePatch o f i) := by
  simp [LinkerPatch.TargetMethodAssert, LinkerPatch.TargetTypeAssert,
    LinkerPatch.TargetMethod, LinkerPatch.TargetTypeDexFile, LinkerPatch.TargetTypeIndex,
    LinkerPatch.MethodPatch, LinkerPatch.CodePatch, LinkerPatch.RelativeCodePatch,
    LinkerPatch.TypePatch]

/-- C10: on in-range `uint32` values of `from_`, the composite key is
injective (so `operator==` is field equality) and `operator<` is the
lexicographic order on `(to_, from_)`, with `to_` compared as a signed
value and `from_` as an unsigned one. -/
theorem srcMapElem_key_characterizes (a b : SrcMapElem)
    (ha : a.from_ < u32) (hb : b.from_ < u32) :
    (a.keyEq b ↔ (a.from_ = b.from_ ∧ a.to_ = b.to_)) ∧
    (a.keyLt b ↔ (a.to_ < b.to_ ∨ (a.to_ = b.to_ ∧ a.from_ < b.from_))) := by
  unfold SrcMapElem.keyEq SrcMapElem.keyLt SrcMapElem.key
  unfold u32 at ha hb
  constructor
  · constructor
    · intro h; omega
    · rintro ⟨h1, h2⟩; rw [h1, h2]
  · constructor <;> intro h <;> omega

/-- Witness for C10 at two in-range entries sharing `to_`. -/
theorem srcMapElem_key_characterizes_witness :
    ((⟨3, -1⟩ : SrcMapElem).from_ < u32 ∧ (⟨5, -1⟩ : SrcMapElem).from_ < u32) ∧
    ((SrcMapElem.keyEq ⟨3, -1⟩ ⟨5, -1⟩ ↔
        ((⟨3, -1⟩ : SrcMapElem).from_ = (⟨5, -1⟩ : SrcMapElem).from_ ∧
          (⟨3, -1⟩ : SrcMapElem).to_ = (⟨5, -1⟩ : SrcMapElem).to_)) ∧
      (SrcMapElem.keyLt ⟨3, -1⟩ ⟨5, -1⟩ ↔
        ((⟨3, -1⟩ : SrcMapElem).to_ < (⟨5, -1⟩ : SrcMapElem).to_ ∨
          ((⟨3, -1⟩ : SrcMapElem).to_ = (⟨5, -1⟩ : SrcMapElem).to_ ∧
            (⟨3, -1⟩ : SrcMapElem).from_ < (⟨5, -1⟩ : SrcMapElem).from_)))) :=
  ⟨⟨by decide, by decide⟩, srcMapElem_key_characterizes ⟨3, -1⟩ ⟨5, -1⟩ (by decide) (by decide)⟩

/-- C7: the concrete delta-encoding example: input `[(10,1),(20,2),(90,3)]`,
baseline `(5,0)`, threshold `50`: the entry at offset 90 is dropped and
the result is exactly `[(5,1),(10,1)]`. -/
theorem deltaFormat_concrete_example :
    SrcMap.DeltaFormat ⟨5, 0⟩ 50 [⟨10, 1⟩, ⟨20, 2⟩, ⟨90, 3⟩] = [⟨5, 1⟩, ⟨10, 1⟩] := rfl

end CompiledMethodSpec

namespace CompiledMethodSpec

/-! ### Helper lemmas about `std::unique` and `Arrange` -/

theorem SrcMapElem.keyLe_def (a b : SrcMapElem) : a.keyLe b ↔ a.key ≤ b.key := Iff.rfl

theorem SrcMapElem.keyLt_def (a b : SrcMapElem) : a.keyLt b ↔ a.key < b.key := Iff.rfl

theorem SrcMap.uniqueFrom_subset :
    ∀ (l : SrcMap) (p x : SrcMapElem), x ∈ SrcMap.uniqueFrom p l → x ∈ l := by
  intro l
  induction l with
  | nil => intro p x h; simp [SrcMap.uniqueFrom] at h
  | cons b rest ih =>
    intro p x h
    rw [SrcMap.uniqueFrom] at h
    by_cases hpb : p.key = b.key
    · rw [if_pos hpb] at h
      exact List.mem_cons_of_mem b (ih p x h)
    · rw [if_neg hpb] at h
      rcases List.mem_cons.mp h with h | h
      · exact h ▸ List.mem_cons_self b rest
      · exact List.mem_cons_of_mem b (ih b x h)

theorem SrcMap.uniqueFrom_key_mem :
    ∀ (l : SrcMap) (p : SrcMapElem) (k : Int),
      k ∈ (p :: l).map SrcMapElem.key →
      k ∈ (p :: SrcMap.uniqueFrom p l).map SrcMapElem.key := by
  intro l
  induction l with
  | nil => intro p k h; simpa [SrcMap.uniqueFrom] using h
  | cons b rest ih =>
    intro p k h
    rw [SrcMap.uniqueFrom]
    by_cases hpb : p.key = b.key
    · rw [if_pos hpb]
      apply ih p k
      simp only [List.map_cons, List.mem_cons] at h ⊢
      rcases h with h | h | h
      · exact Or.inl h
      · exact Or.inl (h.trans hpb.symm)
      · exact Or.inr h
    · rw [if_neg hpb]
      simp only [List.map_cons, List.mem_cons] at h ⊢
      rcases h with h | h
      · exact Or.inl h
      · have hb := ih b k (by simpa using h)
        simp only [List.map_cons, List.mem_cons] at hb
        exact Or.inr hb

theorem SrcMap.uniqueFrom_pairwise :
    ∀ (l : SrcMap) (p : SrcMapElem),
      (p :: l).Pairwise SrcMapElem.keyLe →
      (p :: SrcMap.uniqueFrom p l).Pairwise SrcMapElem.keyLt := by
  intro l
  induction l with
  | nil => intro p _; simp [SrcMap.uniqueFrom]
  | cons b rest ih =>
    intro p hs
    rw [List.pairwise_cons] at hs
    obtain ⟨hp, hbr⟩ := hs
    rw [SrcMap.uniqueFrom]
    by_cases hpb : p.key = b.key
    · rw [if_pos hpb]
      apply ih p
      rw [List.pairwise_cons]
      exact ⟨fun x hx => hp x (List.mem_cons_of_mem b hx), hbr.of_cons⟩
    · rw [if_neg hpb]
      have hple : p.key ≤ b.key := hp b (List.mem_cons_self b rest)
      have hplt : p.key < b.key := lt_of_le_of_ne hple hpb
      have htail := ih b hbr
      rw [List.pairwise_cons]
      refine ⟨?_, htail⟩
      intro x hx
      rcases List.mem_cons.mp hx with hxb | hxu
      · subst hxb
        exact hplt
      · have hxrest := SrcMap.uniqueFrom_subset rest b x hxu
        have hble : b.key ≤ x.key := (List.pairwise_cons.mp hbr).1 x hxrest
        exact lt_of_lt_of_le hplt hble

theorem SrcMap.uniqueFrom_eq_self :
    ∀ (l : SrcMap) (p : SrcMapElem),
      (p :: l).Pairwise SrcMapElem.keyLt → SrcMap.uniqueFrom p l = l := by
  intro l
  induction l with
  | nil => intro p _; rfl
  | cons b rest ih =>
    intro p hs
    rw [List.pairwise_cons] at hs
    obtain ⟨hp, hbr⟩ := hs
    have hpb : p.key < b.key := hp b (List.mem_cons_self b rest)
    rw [SrcMap.uniqueFrom, if_neg (ne_of_lt hpb), ih b hbr]

theorem SrcMap.uniqueAdj_pairwise (l : SrcMap) (hs : l.Pairwise SrcMapElem.keyLe) :
    (SrcMap.uniqueAdj l).Pairwise SrcMapElem.keyLt := by
  cases l with
  | nil => simp [SrcMap.uniqueAdj]
  | cons a rest => exact SrcMap.uniqueFrom_pairwise rest a hs

theorem SrcMap.uniqueAdj_key_mem (l : SrcMap) (k : Int) :
    k ∈ (SrcMap.uniqueAdj l).map SrcMapElem.key ↔ k ∈ l.map SrcMapElem.key := by
  cases l with
  | nil => simp [SrcMap.uniqueAdj]
  | cons a rest =>
    rw [SrcMap.uniqueAdj]
    constructor
    · intro h
      simp only [List.map_cons, List.mem_cons] at h ⊢
      rcases h with h | h
      · exact Or.inl h
      · obtain ⟨x, hx, hxk⟩ := List.mem_map.mp h
        exact Or.inr (List.mem_map.mpr ⟨x, SrcMap.uniqueFrom_subset rest a x hx, hxk⟩)
    · intro h
      exact SrcMap.uniqueFrom_key_mem rest a k h

theorem SrcMap.arrange_pairwise (m : SrcMap) :
    (SrcMap.Arrange m).Pairwise SrcMapElem.keyLt := by
  unfold SrcMap.Arrange
  by_cases hm : m.isEmpty = true
  · rw [if_pos hm]
    cases m with
    | nil => simp
    | cons a rest => simp at hm
  · rw [if_neg hm]
    exact SrcMap.uniqueAdj_pairwise _ (List.sorted_insertionSort SrcMapElem.keyLe m)

theorem SrcMap.arrange_key_mem (m : SrcMap) (k : Int) :
    k ∈ (SrcMap.Arrange m).map SrcMapElem.key ↔ k ∈ m.map SrcMapElem.key := by
  unfold SrcMap.Arrange
  by_cases hm : m.isEmpty = true
  · rw [if_pos hm]
  · rw [if_neg hm, SrcMap.uniqueAdj_key_mem]
    exact ((List.perm_insertionSort SrcMapElem.keyLe m).map SrcMapElem.key).mem_iff

theorem SrcMap.arrange_eq_self (l : SrcMap) (h : l.Pairwise SrcMapElem.keyLt) :
    SrcMap.Arrange l = l := by
  unfold SrcMap.Arrange
  by_cases hl : l.isEmpty = true
  · rw [if_pos hl]
  · rw [if_neg hl]
    have hsorted : List.Sorted SrcMapElem.keyLe l := h.imp (fun hab => le_of_lt hab)
    rw [hsorted.insertionSort_eq]
    cases l with
    | nil => rfl
    | cons a rest => rw [SrcMap.uniqueAdj, SrcMap.uniqueFrom_eq_self rest a h]

/-- C2: after `Arrange`, the sequence is strictly increasing by the
composite key, and each distinct composite key of the input appears
exactly once in the output (keys absent from the input are absent from
the output). -/
theorem arrange_canonical (m : SrcMap) :
    (SrcMap.Arrange m).Pairwise SrcMapElem.keyLt ∧
    ∀ k : Int, ((SrcMap.Arrange m).map SrcMapElem.key).count k =
      if k ∈ m.map SrcMapElem.key then 1 else 0 := by
  refine ⟨SrcMap.arrange_pairwise m, fun k => ?_⟩
  have hnd : ((SrcMap.Arrange m).map SrcMapElem.key).Nodup := by
    rw [List.Nodup, List.pairwise_map]
    exact (SrcMap.arrange_pairwise m).imp (fun h => ne_of_lt h)
  by_cases hk : k ∈ m.map SrcMapElem.key
  · rw [if_pos hk]
    exact List.count_eq_one_of_mem hnd ((SrcMap.arrange_key_mem m k).mpr hk)
  · rw [if_neg hk]
    exact List.count_eq_zero.mpr (fun hmem => hk ((SrcMap.arrange_key_mem m k).mp hmem))

/-- C6: `Arrange` is idempotent: applying it twice yields the same
sequence as applying it once. -/
theorem arrange_idempotent (m : SrcMap) :
    SrcMap.Arrange (SrcMap.Arrange m) = SrcMap.Arrange m :=
  SrcMap.arrange_eq_self _ (SrcMap.arrange_pairwise m)

end CompiledMethodSpec

namespace CompiledMethodSpec

/-! ### Helper lemmas about `SortByFrom`, truncation and deltas -/

theorem SrcMap.sortByFrom_pairwise (m : SrcMap) :
    (SrcMap.SortByFrom m).Pairwise SrcMapElem.fromLe :=
  List.sorted_insertionSort SrcMapElem.fromLe m

theorem SrcMap.sortByFrom_perm (m : SrcMap) : (SrcMap.SortByFrom m).Perm m :=
  List.perm_insertionSort SrcMapElem.fromLe m

theorem SrcMap.dropTrail_eq_filter (H : Nat) (l : SrcMap) :
    l.Pairwise SrcMapElem.fromLe →
    (l.reverse.dropWhile (fun e => decide (H ≤ e.from_))).reverse =
      l.filter (fun e => decide (e.from_ < H)) := by
  induction l using List.reverseRecOn with
  | nil => intro _; simp
  | append_singleton l a ih =>
    intro hs
    rw [List.pairwise_append] at hs
    obtain ⟨hl, _, hla⟩ := hs
    rw [List.reverse_append]
    simp only [List.reverse_cons, List.reverse_nil, List.nil_append, List.singleton_append]
    rw [List.dropWhile_cons]
    by_cases ha : H ≤ a.from_
    · rw [if_pos (by simpa using ha)]
      rw [ih hl, List.filter_append]
      have hfa : ([a] : SrcMap).filter (fun e => decide (e.from_ < H)) = [] := by
        simp [Nat.not_lt.mpr ha]
      rw [hfa, List.append_nil]
    · rw [if_neg (by simpa using ha)]
      rw [List.reverse_cons, List.reverse_reverse]
      have hfl : l.filter (fun e => decide (e.from_ < H)) = l :=
        List.filter_eq_self.mpr (fun e he => by
          have hle : e.from_ ≤ a.from_ := hla e he a (List.mem_singleton_self a)
          simp only [decide_eq_true_eq]
          omega)
      have hfa : ([a] : SrcMap).filter (fun e => decide (e.from_ < H)) = [a] := by
        simp [Nat.lt_of_not_le ha]
      rw [List.filter_append, hfl, hfa]

theorem SrcMap.deltaList_length (l : SrcMap) :
    ∀ prev : SrcMapElem, (SrcMap.deltaList prev l).length = l.length := by
  induction l with
  | nil => intro _; rfl
  | cons e es ih =>
    intro prev
    rw [SrcMap.deltaList]
    simp [ih e]

theorem SrcMap.accumulate_deltaList (l : SrcMap) :
    ∀ prev : SrcMapElem, prev.from_ < u32 → (∀ e ∈ l, e.from_ < u32) →
      SrcMap.accumulate prev (SrcMap.deltaList prev l) = l := by
  induction l with
  | nil => intro prev _ _; rfl
  | cons e es ih =>
    intro prev hp hl
    have hfe : e.from_ < u32 := hl e (List.mem_cons_self e es)
    rw [SrcMap.deltaList]
    simp only [SrcMap.accumulate]
    have h1 : (prev.from_ + SrcMap.u32sub e.from_ prev.from_) % u32 = e.from_ := by
      unfold SrcMap.u32sub
      unfold u32 at hp hfe ⊢
      omega
    have h2 : prev.to_ + (e.to_ - prev.to_) = e.to_ := by omega
    have hcur : (⟨(prev.from_ + SrcMap.u32sub e.from_ prev.from_) % u32,
        prev.to_ + (e.to_ - prev.to_)⟩ : SrcMapElem) = e := by
      calc (⟨(prev.from_ + SrcMap.u32sub e.from_ prev.from_) % u32,
              prev.to_ + (e.to_ - prev.to_)⟩ : SrcMapElem)
          = ⟨e.from_, e.to_⟩ := by rw [h1, h2]
        _ = e := rfl
    rw [hcur]
    exact congrArg (e :: ·) (ih e hfe (fun x hx => hl x (List.mem_cons_of_mem e hx)))

/-- C1: round-trip law of delta encoding: on a non-empty map of
absolute in-range values whose minimum `from_` is at least
`start.from_`, and for a threshold `H` below which at least one entry
falls, `DeltaFormat(start, H)` followed by re-accumulation from `start`
reconstructs exactly the original absolute entries whose `from_` is
below `H`. -/
theorem deltaFormat_roundTrip (start : SrcMapElem) (H : Nat) (m : SrcMap)
    (hne : m ≠ []) (hb : ∀ e ∈ m, e.from_ < u32) (hsb : start.from_ < u32)
    (hmin : ∀ e ∈ m, start.from_ ≤ e.from_)
    (hex : ∃ e ∈ m, e.from_ < H) :
    (SrcMap.accumulate start (SrcMap.DeltaFormat start H m)).Perm
      (m.filter (fun e => decide (e.from_ < H))) := by
  have hperm : (SrcMap.SortByFrom m).Perm m := SrcMap.sortByFrom_perm m
  have hsort : (SrcMap.SortByFrom m).Pairwise SrcMapElem.fromLe :=
    SrcMap.sortByFrom_pairwise m
  obtain ⟨h0, t, hst⟩ : ∃ h0 t, SrcMap.SortByFrom m = h0 :: t := by
    cases hs2 : SrcMap.SortByFrom m with
    | nil =>
      exfalso
      apply hne
      rw [hs2] at hperm
      exact hperm.symm.eq_nil
    | cons x xs => exact ⟨x, xs, rfl⟩
  have hh0H : h0.from_ < H := by
    obtain ⟨e, hem, heH⟩ := hex
    have hes : e ∈ SrcMap.SortByFrom m := hperm.mem_iff.mpr hem
    rw [hst] at hes
    rcases List.mem_cons.mp hes with rfl | hes
    · exact heH
    · have hle : h0.from_ ≤ e.from_ := (List.pairwise_cons.mp (hst ▸ hsort)).1 e hes
      omega
  have htp : t.Pairwise SrcMapElem.fromLe := (hst ▸ hsort).of_cons
  have htrunc : SrcMap.trunc H (SrcMap.SortByFrom m) =
      (SrcMap.SortByFrom m).filter (fun e => decide (e.from_ < H)) := by
    rw [hst, SrcMap.trunc, SrcMap.dropTrail_eq_filter H t htp, List.filter_cons]
    simp [hh0H]
  have hdf : SrcMap.DeltaFormat start H m =
      SrcMap.deltaList start
        ((SrcMap.SortByFrom m).filter (fun e => decide (e.from_ < H))) := by
    rw [SrcMap.DeltaFormat, if_neg (by simp [hne]), htrunc]
  have hbb : ∀ e ∈ (SrcMap.SortByFrom m).filter (fun e => decide (e.from_ < H)),
      e.from_ < u32 := by
    intro e he
    exact hb e (hperm.mem_iff.mp (List.mem_of_mem_filter he))
  rw [hdf, SrcMap.accumulate_deltaList _ start hsb hbb]
  exact hperm.filter _

/-- Witness for C1 at the spec's concrete example. -/
theorem deltaFormat_roundTrip_witness :
    (([⟨10, 1⟩, ⟨20, 2⟩, ⟨90, 3⟩] : SrcMap) ≠ [] ∧
      (∀ e ∈ ([⟨10, 1⟩, ⟨20, 2⟩, ⟨90, 3⟩] : SrcMap), e.from_ < u32) ∧
      (⟨5, 0⟩ : SrcMapElem).from_ < u32 ∧
      (∀ e ∈ ([⟨10, 1⟩, ⟨20, 2⟩, ⟨90, 3⟩] : SrcMap),
        (⟨5, 0⟩ : SrcMapElem).from_ ≤ e.from_) ∧
      (∃ e ∈ ([⟨10, 1⟩, ⟨20, 2⟩, ⟨90, 3⟩] : SrcMap), e.from_ < 50)) ∧
    (SrcMap.accumulate ⟨5, 0⟩
        (SrcMap.DeltaFormat ⟨5, 0⟩ 50 [⟨10, 1⟩, ⟨20, 2⟩, ⟨90, 3⟩])).Perm
      (([⟨10, 1⟩, ⟨20, 2⟩, ⟨90, 3⟩] : SrcMap).filter
        (fun e => decide (e.from_ < 50))) :=
  ⟨⟨by decide, by decide, by decide, by decide, by decide⟩,
    deltaFormat_roundTrip ⟨5, 0⟩ 50 _ (by decide) (by decide) (by decide)
      (by decide) (by decide)⟩

end CompiledMethodSpec

namespace CompiledMethodSpec

/-- C5: tail truncation keeps an anchor: on a non-empty map,
`DeltaFormat(start, H)` leaves the map non-empty, and the number of
entries afterwards is `max 1` of the number of input entries with
`from_ < H` — in particular entry 0 survives even when every entry's
`from_` is `≥ H`. -/
theorem deltaFormat_keeps_anchor (start : SrcMapElem) (H : Nat) (m : SrcMap)
    (hne : m ≠ []) :
    SrcMap.DeltaFormat start H m ≠ [] ∧
    (SrcMap.DeltaFormat start H m).length =
      max 1 (m.countP (fun e => decide (e.from_ < H))) := by
  have hperm : (SrcMap.SortByFrom m).Perm m := SrcMap.sortByFrom_perm m
  have hsort : (SrcMap.SortByFrom m).Pairwise SrcMapElem.fromLe :=
    SrcMap.sortByFrom_pairwise m
  obtain ⟨h0, t, hst⟩ : ∃ h0 t, SrcMap.SortByFrom m = h0 :: t := by
    cases hs2 : SrcMap.SortByFrom m with
    | nil =>
      exfalso
      apply hne
      rw [hs2] at hperm
      exact hperm.symm.eq_nil
    | cons x xs => exact ⟨x, xs, rfl⟩
  have htp : t.Pairwise SrcMapElem.fromLe := (hst ▸ hsort).of_cons
  have hdf : SrcMap.DeltaFormat start H m =
      SrcMap.deltaList start (SrcMap.trunc H (SrcMap.SortByFrom m)) := by
    rw [SrcMap.DeltaFormat, if_neg (by simp [hne])]
  have hcm : m.countP (fun e => decide (e.from_ < H)) =
      (SrcMap.SortByFrom m).countP (fun e => decide (e.from_ < H)) :=
    (hperm.countP_eq _).symm
  rw [hdf, hst, SrcMap.trunc]
  constructor
  · rw [SrcMap.deltaList]
    exact List.cons_ne_nil _ _
  · rw [SrcMap.deltaList_length, List.length_cons,
      SrcMap.dropTrail_eq_filter H t htp, hcm, hst, List.countP_cons,
      List.countP_eq_length_filter]
    by_cases hh : h0.from_ < H
    · rw [if_pos (by simpa using hh)]
      omega
    · have hft : t.filter (fun e => decide (e.from_ < H)) = [] := by
        rw [List.filter_eq_nil_iff]
        intro e he
        have hle : h0.from_ ≤ e.from_ := (List.pairwise_cons.mp (hst ▸ hsort)).1 e he
        simp only [decide_eq_true_eq]
        omega
      rw [hft]
      simp [hh]

/-- Witness for C5 on a map whose sole entry lies above the threshold. -/
theorem deltaFormat_keeps_anchor_witness :
    (([⟨10, 1⟩] : SrcMap) ≠ []) ∧
    (SrcMap.DeltaFormat ⟨0, 0⟩ 5 [⟨10, 1⟩] ≠ [] ∧
      (SrcMap.DeltaFormat ⟨0, 0⟩ 5 [⟨10, 1⟩]).length =
        max 1 (([⟨10, 1⟩] : SrcMap).countP (fun e => decide (e.from_ < 5)))) :=
  ⟨by decide, deltaFormat_keeps_anchor ⟨0, 0⟩ 5 [⟨10, 1⟩] (by decide)⟩

/-- C9: on a non-empty map of in-range values, if `start.from_` is at
most the minimum `from_` of the map then the
`DCHECK((*this)[0].from_ >= start.from_)` in `DeltaFormat` holds and
entry 0's `from_` subtraction is exact (no wrap below zero); if instead
some entry's `from_` (hence the minimum, which becomes entry 0 after
sorting) is below `start.from_`, the assertion fails. -/
theorem deltaFormat_assert_baseline (start : SrcMapElem) (H : Nat) (m : SrcMap)
    (hne : m ≠ []) (hb : ∀ e ∈ m, e.from_ < u32) (hsb : start.from_ < u32) :
    ((∀ e ∈ m, start.from_ ≤ e.from_) →
      SrcMap.DeltaFormatAssert start H m ∧
      ∀ h l, SrcMap.trunc H (SrcMap.SortByFrom m) = h :: l →
        (SrcMap.DeltaFormat start H m).head? =
          some ⟨h.from_ - start.from_, h.to_ - start.to_⟩) ∧
    ((∃ e ∈ m, e.from_ < start.from_) → ¬ SrcMap.DeltaFormatAssert start H m) := by
  have hperm : (SrcMap.SortByFrom m).Perm m := SrcMap.sortByFrom_perm m
  have hsort : (SrcMap.SortByFrom m).Pairwise SrcMapElem.fromLe :=
    SrcMap.sortByFrom_pairwise m
  obtain ⟨h0, t, hst⟩ : ∃ h0 t, SrcMap.SortByFrom m = h0 :: t := by
    cases hs2 : SrcMap.SortByFrom m with
    | nil =>
      exfalso
      apply hne
      rw [hs2] at hperm
      exact hperm.symm.eq_nil
    | cons x xs => exact ⟨x, xs, rfl⟩
  have hh0m : h0 ∈ m := hperm.mem_iff.mp (hst ▸ List.mem_cons_self h0 t)
  have htr : SrcMap.trunc H (SrcMap.SortByFrom m) =
      h0 :: (t.reverse.dropWhile (fun e => decide (H ≤ e.from_))).reverse := by
    rw [hst, SrcMap.trunc]
  have hassert_iff : SrcMap.DeltaFormatAssert start H m ↔ start.from_ ≤ h0.from_ := by
    unfold SrcMap.DeltaFormatAssert
    rw [htr]
  constructor
  · intro hmin
    refine ⟨hassert_iff.mpr (hmin h0 hh0m), ?_⟩
    intro h l htr2
    have hh : h = h0 := by
      rw [htr] at htr2
      exact (List.cons.injEq _ _ _ _ ▸ htr2).1.symm
    subst hh
    have hdf : SrcMap.DeltaFormat start H m = SrcMap.deltaList start (h :: l) := by
      rw [SrcMap.DeltaFormat, if_neg (by simp [hne]), htr2]
    rw [hdf, SrcMap.deltaList]
    have hhu : h.from_ < u32 := hb h hh0m
    have hhs : start.from_ ≤ h.from_ := hmin h hh0m
    have hsub : SrcMap.u32sub h.from_ start.from_ = h.from_ - start.from_ := by
      unfold SrcMap.u32sub
      unfold u32 at hsb hhu ⊢
      omega
    rw [List.head?_cons, hsub]
  · rintro ⟨e, hem, hlt⟩
    rw [hassert_iff]
    have hes : e ∈ SrcMap.SortByFrom m := hperm.mem_iff.mpr hem
    rw [hst] at hes
    rcases List.mem_cons.mp hes with rfl | hes
    · omega
    · have hle : h0.from_ ≤ e.from_ := (List.pairwise_cons.mp (hst ▸ hsort)).1 e hes
      omega

/-- Witness for C9: a singleton map at baseline 5, both branches of the
conclusion instantiated. -/
theorem deltaFormat_assert_baseline_witness :
    (([⟨10, 1⟩] : SrcMap) ≠ [] ∧
      (∀ e ∈ ([⟨10, 1⟩] : SrcMap), e.from_ < u32) ∧
      (⟨5, 0⟩ : SrcMapElem).from_ < u32) ∧
    (((∀ e ∈ ([⟨10, 1⟩] : SrcMap), (⟨5, 0⟩ : SrcMapElem).from_ ≤ e.from_) →
      SrcMap.DeltaFormatAssert ⟨5, 0⟩ 50 [⟨10, 1⟩] ∧
      ∀ h l, SrcMap.trunc 50 (SrcMap.SortByFrom [⟨10, 1⟩]) = h :: l →
        (SrcMap.DeltaFormat ⟨5, 0⟩ 50 [⟨10, 1⟩]).head? =
          some ⟨h.from_ - (⟨5, 0⟩ : SrcMapElem).from_,
                h.to_ - (⟨5, 0⟩ : SrcMapElem).to_⟩) ∧
    ((∃ e ∈ ([⟨10, 1⟩] : SrcMap), e.from_ < (⟨5, 0⟩ : SrcMapElem).from_) →
      ¬ SrcMap.DeltaFormatAssert ⟨5, 0⟩ 50 [⟨10, 1⟩])) :=
  ⟨⟨by decide, by decide, by decide⟩,
    deltaFormat_assert_baseline ⟨5, 0⟩ 50 [⟨10, 1⟩] (by decide) (by decide) (by decide)⟩

end CompiledMethodSpec

namespace CompiledMethodSpec

/-- Invariant proof for the `std::lower_bound` loop: if everything
before `first` is `< v`, everything at or past `first + count` is
`≥ v`, and the keys are monotone, the loop lands on the boundary. -/
theorem SrcMap.lowerBoundGo_spec (m : SrcMap) (v : Int)
    (hmono : ∀ i j : Nat, ∀ hi : i < m.length, ∀ hj : j < m.length, i ≤ j →
      (m.get ⟨i, hi⟩).key ≤ (m.get ⟨j, hj⟩).key) :
    ∀ fuel count first, count ≤ fuel → first + count ≤ m.length →
      (∀ j, j < first → ∀ hj : j < m.length, (m.get ⟨j, hj⟩).key < v) →
      (∀ j, first + count ≤ j → ∀ hj : j < m.length, v ≤ (m.get ⟨j, hj⟩).key) →
      first ≤ SrcMap.lowerBoundGo m v fuel first count ∧
      SrcMap.lowerBoundGo m v fuel first count ≤ first + count ∧
      (∀ j, j < SrcMap.lowerBoundGo m v fuel first count → ∀ hj : j < m.length,
        (m.get ⟨j, hj⟩).key < v) ∧
      (∀ j, SrcMap.lowerBoundGo m v fuel first count ≤ j → ∀ hj : j < m.length,
        v ≤ (m.get ⟨j, hj⟩).key) := by
  intro fuel
  induction fuel with
  | zero =>
    intro count first hcf _ hlow hhigh
    have hc0 : count = 0 := Nat.le_zero.mp hcf
    subst hc0
    rw [SrcMap.lowerBoundGo]
    exact ⟨Nat.le_refl _, by omega, hlow, fun j hj hjm => hhigh j (by omega) hjm⟩
  | succ fuel ih =>
    intro count first hcf hlen hlow hhigh
    cases count with
    | zero =>
      rw [SrcMap.lowerBoundGo]
      exact ⟨Nat.le_refl _, by omega, hlow, fun j hj hjm => hhigh j (by omega) hjm⟩
    | succ c =>
      rw [SrcMap.lowerBoundGo]
      have hstep : (c + 1) / 2 ≤ c := by omega
      have hit : first + (c + 1) / 2 < m.length := by omega
      have hgetD : m.getD (first + (c + 1) / 2) default =
          m.get ⟨first + (c + 1) / 2, hit⟩ := List.getD_eq_get m default hit
      by_cases hlt : (m.getD (first + (c + 1) / 2) default).key < v
      · rw [if_pos hlt]
        rw [hgetD] at hlt
        have hrec := ih (c - (c + 1) / 2) (first + (c + 1) / 2 + 1)
          (by omega) (by omega)
          (fun j hj hjm => by
            have hjle : j ≤ first + (c + 1) / 2 := by omega
            rcases Nat.lt_or_ge j first with hjf | hjf
            · exact hlow j hjf hjm
            · exact lt_of_le_of_lt (hmono j (first + (c + 1) / 2) hjm hit hjle) hlt)
          (fun j hj hjm => hhigh j (by omega) hjm)
        obtain ⟨r1, r2, r3, r4⟩ := hrec
        exact ⟨by omega, by omega, r3, r4⟩
      · rw [if_neg hlt]
        rw [hgetD] at hlt
        have hvle : v ≤ (m.get ⟨first + (c + 1) / 2, hit⟩).key := le_of_not_lt hlt
        have hrec := ih ((c + 1) / 2) first
          (by omega) (by omega)
          hlow
          (fun j hj hjm => by
            have hij : first + (c + 1) / 2 ≤ j := hj
            exact le_trans hvle (hmono (first + (c + 1) / 2) j hit hjm hij))
        obtain ⟨r1, r2, r3, r4⟩ := hrec
        exact ⟨r1, by omega, r3, r4⟩

/-- C4: on a canonical map (strictly increasing by composite key),
`FindByTo(target_to)` returns the index of the first entry whose
composite key is `≥` the key of `{from = 0, to = target_to}`, or the
length (the end iterator) when no such entry exists: an index `j` lies
strictly before the result exactly when its key is `<` the probe key. -/
theorem findByTo_first_geq (m : SrcMap) (target_to : Int)
    (hs : m.Pairwise SrcMapElem.keyLt) :
    SrcMap.FindByTo m target_to ≤ m.length ∧
    ∀ j, ∀ hj : j < m.length,
      (j < SrcMap.FindByTo m target_to ↔
        (m.get ⟨j, hj⟩).key < SrcMapElem.key ⟨0, target_to⟩) := by
  have hmono : ∀ i j : Nat, ∀ hi : i < m.length, ∀ hj : j < m.length, i ≤ j →
      (m.get ⟨i, hi⟩).key ≤ (m.get ⟨j, hj⟩).key := by
    intro i j hi hj hij
    rcases Nat.lt_or_eq_of_le hij with hlt | heq
    · have hk : (m.get ⟨i, hi⟩).keyLt (m.get ⟨j, hj⟩) :=
        (List.pairwise_iff_get.mp hs) ⟨i, hi⟩ ⟨j, hj⟩ hlt
      exact le_of_lt hk
    · subst heq
      exact le_refl _
  have hspec := SrcMap.lowerBoundGo_spec m (SrcMapElem.key ⟨0, target_to⟩) hmono
    m.length m.length 0 (Nat.le_refl _) (by omega)
    (fun j hj _ => absurd hj (Nat.not_lt_zero j))
    (fun j hj hjm => absurd hjm (by omega))
  obtain ⟨_, h2, h3, h4⟩ := hspec
  have hF : SrcMap.FindByTo m target_to =
      SrcMap.lowerBoundGo m (SrcMapElem.key ⟨0, target_to⟩) m.length 0 m.length := rfl
  rw [hF]
  refine ⟨by omega, ?_⟩
  intro j hj
  constructor
  · intro hjf
    exact h3 j hjf hj
  · intro hk
    by_contra hnot
    exact absurd hk (not_lt.mpr (h4 j (Nat.le_of_not_lt hnot) hj))

/-- Witness for C4 on a concrete canonical three-entry map. -/
theorem findByTo_first_geq_witness :
    ((([⟨3, 1⟩, ⟨7, 1⟩, ⟨5, 2⟩] : SrcMap).Pairwise SrcMapElem.keyLt) ∧
      (SrcMap.FindByTo [⟨3, 1⟩, ⟨7, 1⟩, ⟨5, 2⟩] 2 ≤
          ([⟨3, 1⟩, ⟨7, 1⟩, ⟨5, 2⟩] : SrcMap).length ∧
        ∀ j, ∀ hj : j < ([⟨3, 1⟩, ⟨7, 1⟩, ⟨5, 2⟩] : SrcMap).length,
          (j < SrcMap.FindByTo [⟨3, 1⟩, ⟨7, 1⟩, ⟨5, 2⟩] 2 ↔
            (([⟨3, 1⟩, ⟨7, 1⟩, ⟨5, 2⟩] : SrcMap).get ⟨j, hj⟩).key <
              SrcMapElem.key ⟨0, 2⟩))) :=
  ⟨by decide, findByTo_first_geq [⟨3, 1⟩, ⟨7, 1⟩, ⟨5, 2⟩] 2 (by decide)⟩

end CompiledMethodSpec
